import Mathlib

/-!
# Verification of `dyn::rle_string` (include/internal/rle_string.hpp)

A shallow embedding of the run-length encoded string of the DYNAMIC library.

Conventions of the embedding.

* `ulint` (64-bit unsigned) is `Nat`.  Every quantity the functions compute on
  a state that encodes a string is bounded by the string length plus one, so no
  wrap-around happens for strings shorter than `2^64`.
* Two methods are the subject of statements about a run-head layer of any size,
  which is no more than a size and a first bit: `run_heads_rank` and
  `run_heads_split`.  They are given a second time with their 64-bit sum
  written out, `run_heads_rank_ulint` and `run_heads_split_ulint`, and those
  statements are about these.
* `assert(e)` is modelled as failure: every function returns an `Option`, and
  `none` stands for a failed assertion (of the function itself or of a callee).
  A mutating function returns the new state, or `none`, in which case there is
  no new state.
* `typeid(char_type) == typeid(bool)` is `char_kind.is_bool`; the kind
  `char_kind.bool` forces the character type to be `Bool`.
* The two template parameters `sparse_bitvector_t` and `string_t` are not part
  of the file; they are modelled from their contract in the specification.
-/

namespace dyn

/-! ## Collaborators -/

/-- Modelled from the spec: the sparse bitvector type `sparse_bitvector_t`
(template parameter, not defined in rle_string.hpp).  A bitvector is the list
of its bits. -/
abbrev sparse_bitvector_t := List Bool

/-- Modelled from the spec: `rank1(i)`, the count of set bits before
position `i`. -/
def sparse_bitvector_t.rank1 (b : sparse_bitvector_t) (i : Nat) : Nat :=
  (b.take i).count true

/-- Modelled from the spec: `select1(k)`, the position of the `(k+1)`-th set
bit; it fails when fewer than `k+1` bits are set. -/
def sparse_bitvector_t.select1 : sparse_bitvector_t → Nat → Option Nat
  | [], _ => none
  | true :: _, 0 => some 0
  | true :: t, k + 1 => (sparse_bitvector_t.select1 t k).map (· + 1)
  | false :: t, k => (sparse_bitvector_t.select1 t k).map (· + 1)

/-- Modelled from the spec: the compressed symbol sequence `string_t`
(template parameter, not defined in rle_string.hpp): a sequence of symbols with
access, rank, select and positional insert. -/
abbrev string_t (α : Type) := List α

/-- Modelled from the spec: `access(i)` (`operator[]`) of `string_t`; it fails
past the end. -/
def string_t.access {α : Type} (s : string_t α) (i : Nat) : Option α :=
  s[i]?

/-- Modelled from the spec: `rank(i, c)` of `string_t`, the number of `c`
among the first `i` symbols. -/
def string_t.rank {α : Type} [DecidableEq α] (s : string_t α) (i : Nat) (c : α) : Nat :=
  (s.take i).count c

/-- Modelled from the spec: `select(k, c)` of `string_t`, the position of the
`(k+1)`-th `c`; it fails when `c` occurs fewer than `k+1` times. -/
def string_t.select {α : Type} [DecidableEq α] : string_t α → Nat → α → Option Nat
  | [], _, _ => none
  | a :: t, k, c =>
    if a = c then
      match k with
      | 0 => some 0
      | k + 1 => (string_t.select t k c).map (· + 1)
    else (string_t.select t k c).map (· + 1)

/-- Modelled from the spec: positional `insert(i, c)` of `string_t`: the new
symbol is at position `i`, the symbols from `i` on move one place up. -/
def string_t.insert {α : Type} (s : string_t α) (i : Nat) (c : α) : string_t α :=
  s.take i ++ c :: s.drop i

/-- Modelled from the spec: the constructor `string_t(sigma)` of the symbol
sequence, from an alphabet size.  The size fixes the coding of the symbols
only: the sequence starts empty. -/
def string_t.of_sigma {α : Type} (_sigma : Nat) : string_t α := []

/-- Modelled from the spec: the constructor `string_t(P)` of the symbol
sequence, from pairs of a symbol and its probability (a `double`, here any type
`ρ`).  The probabilities fix the coding of the symbols only: the sequence
starts empty. -/
def string_t.of_probabilities {α ρ : Type} (_P : List (α × ρ)) : string_t α := []

/-! ## The class `rle_string` -/

/-- The character type of an instantiation: `bool` is `char_type = bool`,
`other α` any other character type. -/
inductive char_kind : Type → Type 1
  | bool : char_kind Bool
  | other (α : Type) : char_kind α

/-- The test `typeid(char_type) == typeid(bool)`. -/
def char_kind.is_bool {α : Type} : char_kind α → Bool
  | .bool => true
  | .other _ => false

/-- A character read as a `bool` operand.  It is only evaluated in the branches
taken when `char_type` is `bool`, where it is the identity. -/
def char_kind.to_bool {α : Type} : char_kind α → α → Bool
  | .bool, c => c
  | .other _, _ => false

/-- A `bool` result returned as a character.  It is only evaluated in the
branches taken when `char_type` is `bool`, where it is the identity. -/
def char_kind.of_bool {α : Type} : char_kind α → Bool → Option α
  | .bool, b => some b
  | .other _, _ => none

/-- Data members of `rle_string` (lines 449-463).  `runs_per_letter` is a
`std::map` read with `operator[]`, which gives an empty bitvector for a letter
that has no entry: it is a total function. -/
structure rle_string (α : Type) where
  runs : sparse_bitvector_t
  runs_per_letter : α → sparse_bitvector_t
  run_heads_ : string_t α
  run_heads_size : Nat
  run_heads_first_bit : Bool
  n : Nat
  R : Nat

namespace rle_string

variable {α : Type}

/-- Constructor #1 (line 37): every member has its default value. -/
def empty : rle_string α :=
  { runs := [], runs_per_letter := fun _ => [], run_heads_ := [],
    run_heads_size := 0, run_heads_first_bit := false, n := 0, R := 0 }

/-- The method `size()` (line 220). -/
def size (st : rle_string α) : Nat := st.n

/-- The method `number_of_runs()` (line 256). -/
def number_of_runs (st : rle_string α) : Nat := st.R

/-- The expression `(r == 0 ? 0 : b.select1(r-1)+1)` of lines 99, 104, 144 and
147: the position that follows the `r`-th set bit of `b`, and 0 for `r = 0`. -/
def after_run (b : sparse_bitvector_t) (r : Nat) : Option Nat :=
  if r = 0 then some 0 else (b.select1 (r - 1)).map (· + 1)

/-- The method `run_heads_at(i)` (lines 308-322). -/
def run_heads_at (T : char_kind α) (st : rle_string α) (i : Nat) : Option α :=
  if i < st.run_heads_size then
    if T.is_bool then T.of_bool (xor (i % 2 == 1) st.run_heads_first_bit)
    else st.run_heads_.access i
  else none

/-- The method `run_heads_rank(i, c)` (lines 324-338). -/
def run_heads_rank [DecidableEq α] (T : char_kind α) (st : rle_string α) (i : Nat) (c : α) :
    Option Nat :=
  if i ≤ st.run_heads_size then
    if T.is_bool then some ((i + (xor st.run_heads_first_bit (!T.to_bool c)).toNat) / 2)
    else some (st.run_heads_.rank i c)
  else none

/-- The method `run_heads_select(i, c)` (lines 340-353). -/
def run_heads_select [DecidableEq α] (T : char_kind α) (st : rle_string α) (i : Nat) (c : α) :
    Option Nat :=
  if T.is_bool then
    if i < st.run_heads_size / 2 then
      some (i * 2 + (xor (T.to_bool c) st.run_heads_first_bit).toNat)
    else none
  else st.run_heads_.select i c

/-- The method `at(i)` (lines 76-81); `operator[]` (lines 83-87) is the same
call. -/
def at_ (T : char_kind α) (st : rle_string α) (i : Nat) : Option α :=
  if i < st.n then run_heads_at T st (st.runs.rank1 i) else none

/-- The method `rank(i, c)` (lines 133-151). -/
def rank [DecidableEq α] (T : char_kind α) (st : rle_string α) (i : Nat) (c : α) : Option Nat :=
  if i ≤ st.size then do
    let this_run := st.runs.rank1 i
    let this_c_run ← run_heads_rank T st this_run c
    let start ← after_run st.runs this_run
    let rk := i - start
    let before ← after_run (st.runs_per_letter c) this_c_run
    some (rk + before)
  else none

/-- The method `select(i, c)` (lines 92-108). -/
def select [DecidableEq α] (T : char_kind α) (st : rle_string α) (i : Nat) (c : α) :
    Option Nat := do
  let total ← rank T st st.size c
  if i < total then
    let this_c_run := (st.runs_per_letter c).rank1 i
    let start ← after_run (st.runs_per_letter c) this_c_run
    let sel := i - start
    let this_run ← run_heads_select T st this_c_run c
    let base ← after_run st.runs this_run
    some (sel + base)
  else none

/-- The method `run_heads_insert(i, c)` (lines 360-382).  The second neighbour
assertion reads `run_heads_at(i+1)`, as in the source. -/
def run_heads_insert [DecidableEq α] (T : char_kind α) (st : rle_string α) (i : Nat) (c : α) :
    Option (rle_string α) :=
  if i ≤ st.run_heads_size then
    if i = 0 ∨ (∃ x, run_heads_at T st (i - 1) = some x ∧ x ≠ c) then
      if i = st.run_heads_size ∨ (∃ x, run_heads_at T st (i + 1) = some x ∧ x ≠ c) then
        if T.is_bool then
          some { st with run_heads_size := st.run_heads_size + 1,
                         run_heads_first_bit := xor st.run_heads_first_bit (decide (i = 0)) }
        else
          some { st with run_heads_size := st.run_heads_size + 1,
                         run_heads_ := st.run_heads_.insert i c }
      else none
    else none
  else none

/-- The method `run_heads_split(i, c)` (lines 387-408). -/
def run_heads_split [DecidableEq α] (T : char_kind α) (st : rle_string α) (i : Nat) (c : α) :
    Option (rle_string α) :=
  if i < st.run_heads_size then
    match run_heads_at T st i with
    | none => none
    | some r =>
      if r ≠ c then
        if T.is_bool then some { st with run_heads_size := st.run_heads_size + 2 }
        else
          some { st with run_heads_size := st.run_heads_size + 2,
                         run_heads_ := (st.run_heads_.insert (i + 1) r).insert (i + 1) c }
      else none
  else none

/-- Constructor #2 (lines 48-57), from the alphabet size `sigma`. -/
def of_sigma (T : char_kind α) (sigma : Nat) : Option (rle_string α) :=
  if T.is_bool = false then
    if 0 < sigma then
      some { (empty : rle_string α) with run_heads_ := string_t.of_sigma sigma }
    else none
  else none

/-- Constructor #3 (lines 69-74), from the character probabilities `P`. -/
def of_probabilities {ρ : Type} (T : char_kind α) (P : List (α × ρ)) : Option (rle_string α) :=
  if T.is_bool = false then
    some { (empty : rle_string α) with run_heads_ := string_t.of_probabilities P }
  else none

/-- The method `select0(i)` (lines 113-118). -/
def select0 [DecidableEq α] (T : char_kind α) (st : rle_string α) (i : Nat) : Option Nat :=
  if T.is_bool then (T.of_bool false).bind (fun c => select T st i c) else none

/-- The method `select1(i)` (lines 123-128). -/
def select1 [DecidableEq α] (T : char_kind α) (st : rle_string α) (i : Nat) : Option Nat :=
  if T.is_bool then (T.of_bool true).bind (fun c => select T st i c) else none

/-- The method `rank0(i)` (lines 156-161). -/
def rank0 [DecidableEq α] (T : char_kind α) (st : rle_string α) (i : Nat) : Option Nat :=
  if T.is_bool then (T.of_bool false).bind (fun c => rank T st i c) else none

/-- The method `rank1(i)` (lines 166-171). -/
def rank1 [DecidableEq α] (T : char_kind α) (st : rle_string α) (i : Nat) : Option Nat :=
  if T.is_bool then (T.of_bool true).bind (fun c => rank T st i c) else none

/-- The method `run_heads_rank(i, c)` (lines 324-338) with the sum of line 330
computed as the `ulint` it is: it wraps at `2^64`.  `run_heads_rank` is the
same method with an unbounded sum. -/
def run_heads_rank_ulint [DecidableEq α] (T : char_kind α) (st : rle_string α) (i : Nat)
    (c : α) : Option Nat :=
  if i ≤ st.run_heads_size then
    if T.is_bool then
      some ((i + (xor st.run_heads_first_bit (!T.to_bool c)).toNat) % 2 ^ 64 / 2)
    else some (st.run_heads_.rank i c)
  else none

/-- The method `run_heads_split(i, c)` (lines 387-408) with `run_heads_size += 2`
of line 395 computed as the `ulint` it is: it wraps at `2^64`.
`run_heads_split` is the same method with an unbounded size. -/
def run_heads_split_ulint [DecidableEq α] (T : char_kind α) (st : rle_string α) (i : Nat)
    (c : α) : Option (rle_string α) :=
  if i < st.run_heads_size then
    match run_heads_at T st i with
    | none => none
    | some r =>
      if r ≠ c then
        if T.is_bool then some { st with run_heads_size := (st.run_heads_size + 2) % 2 ^ 64 }
        else
          some { st with run_heads_size := (st.run_heads_size + 2) % 2 ^ 64,
                         run_heads_ := (st.run_heads_.insert (i + 1) r).insert (i + 1) c }
      else none
  else none

end rle_string

/-! ## The state that encodes a string -/

section encoding

variable {α : Type} [DecidableEq α]

/-- The maximal runs of a string, first to last.  A pair `(c, k)` is a run of
`k + 1` copies of `c`. -/
def runs_of : List α → List (α × Nat)
  | [] => []
  | a :: t =>
    match runs_of t with
    | [] => [(a, 0)]
    | (b, k) :: rs => if a = b then (b, k + 1) :: rs else (a, 0) :: (b, k) :: rs

/-- The string a list of runs stands for. -/
def expand : List (α × Nat) → List α
  | [] => []
  | (c, k) :: rs => List.replicate (k + 1) c ++ expand rs

/-- The main bitvector (line 449-451): "a run of length n+1 is stored as
0^n1". -/
def run_bits : List (α × Nat) → sparse_bitvector_t
  | [] => []
  | (_, k) :: rs => List.replicate k false ++ true :: run_bits rs

/-- The bitvector of letter `c` (line 453-454): the runs of `c`, stored
contiguously in the same way. -/
def letter_bits (c : α) : List (α × Nat) → sparse_bitvector_t
  | [] => []
  | (h, k) :: rs =>
    if h = c then List.replicate k false ++ true :: letter_bits c rs else letter_bits c rs

/-- The run heads of a list of runs. -/
def heads (rs : List (α × Nat)) : List α := rs.map Prod.fst

/-- The state that stores a list of runs.  The boolean instantiation stores no
run heads, only their number and the first one. -/
def of_runs (T : char_kind α) (rs : List (α × Nat)) : rle_string α :=
  { runs := run_bits rs
    runs_per_letter := fun c => letter_bits c rs
    run_heads_ := if T.is_bool then [] else heads rs
    run_heads_size := rs.length
    run_heads_first_bit := T.is_bool && ((heads rs).head?.map T.to_bool).getD false
    n := (expand rs).length
    R := rs.length }

/-- The state that encodes the string `s`. -/
def encode (T : char_kind α) (s : List α) : rle_string α :=
  of_runs T (runs_of s)

/-- A state that holds only a run-head sequence `h`: the other members are
those of a default-constructed object. -/
def of_heads (T : char_kind α) (h : List α) : rle_string α :=
  { (rle_string.empty : rle_string α) with
    run_heads_ := if T.is_bool then [] else h
    run_heads_size := h.length
    run_heads_first_bit := T.is_bool && (h.head?.map T.to_bool).getD false }

/-- The run heads of a state, as read by `run_heads_at` at `0, 1, ...`. -/
def read_heads (T : char_kind α) (st : rle_string α) : List (Option α) :=
  (List.range st.run_heads_size).map (rle_string.run_heads_at T st)

/-- The first position of the run that holds position `i`; the length of the
string when `i` is past its last position. -/
def run_start : List (α × Nat) → Nat → Nat
  | [], _ => 0
  | (_, k) :: rs, i => if i ≤ k then 0 else (k + 1) + run_start rs (i - (k + 1))

/-- The number of `c` in the runs that lie wholly before the run that holds
position `i`. -/
def count_before_run (c : α) : List (α × Nat) → Nat → Nat
  | [], _ => 0
  | (h, k) :: rs, i =>
    if i ≤ k then 0 else (if h = c then k + 1 else 0) + count_before_run c rs (i - (k + 1))

/-- The position of the `(i+1)`-th `c` in the string of a list of runs (the
length of the string when there is none). -/
def nth_pos (c : α) : List (α × Nat) → Nat → Nat
  | [], _ => 0
  | (h, k) :: rs, i =>
    if h = c then (if i ≤ k then i else (k + 1) + nth_pos c rs (i - (k + 1)))
    else (k + 1) + nth_pos c rs i

/-- The alternating bit sequence of length `m` that starts with `b`. -/
def alt : Bool → Nat → List Bool
  | _, 0 => []
  | b, m + 1 => b :: alt (!b) m

/-- No two consecutive elements are equal. -/
def no_adjacent_dup : List α → Bool
  | a :: b :: t => a != b && no_adjacent_dup (b :: t)
  | _ => true

/-- A boolean state whose run-head layer has first bit `f` and size `m`; the
other members are those of a default-constructed object. -/
def bool_heads (f : Bool) (m : Nat) : rle_string Bool :=
  { (rle_string.empty : rle_string Bool) with run_heads_size := m, run_heads_first_bit := f }

/-- A call of one of the two run-head mutation primitives. -/
inductive run_heads_call (α : Type)
  | insert (i : Nat) (c : α)
  | split (i : Nat) (c : α)

/-- One call on a state. -/
def run_heads_call.apply (T : char_kind α) (st : rle_string α) :
    run_heads_call α → Option (rle_string α)
  | .insert i c => rle_string.run_heads_insert T st i c
  | .split i c => rle_string.run_heads_split T st i c

/-- A sequence of calls, each on the state the previous one left; `none` as
soon as one call is refused. -/
def apply_calls (T : char_kind α) : rle_string α → List (run_heads_call α) →
    Option (rle_string α)
  | st, [] => some st
  | st, k :: ks => (run_heads_call.apply T st k).bind (fun st2 => apply_calls T st2 ks)

/-- The number of run heads a sequence of accepted calls adds: one for an
insert, two for a split. -/
def heads_added : List (run_heads_call α) → Nat
  | [] => 0
  | .insert _ _ :: ks => 1 + heads_added ks
  | .split _ _ :: ks => 2 + heads_added ks

end encoding

set_option linter.unusedSectionVars false

open rle_string

/-! ## Bitvectors made of blocks `0^k 1` -/

theorem rank1_block (k : Nat) (rest : List Bool) (i : Nat) :
    sparse_bitvector_t.rank1 (List.replicate k false ++ true :: rest) i
      = if i ≤ k then 0 else 1 + sparse_bitvector_t.rank1 rest (i - (k + 1)) := by
  induction k generalizing i with
  | zero =>
    cases i with
    | zero => simp [sparse_bitvector_t.rank1]
    | succ i => simp [sparse_bitvector_t.rank1, Nat.add_comm]
  | succ k ih =>
    cases i with
    | zero => simp [sparse_bitvector_t.rank1]
    | succ i =>
      have h := ih i
      simp only [sparse_bitvector_t.rank1] at h ⊢
      simp only [List.replicate_succ, List.cons_append, List.take_succ_cons]
      rw [List.count_cons_of_ne (by decide), h]
      simp

theorem select1_false_cons (t : List Bool) (k : Nat) :
    sparse_bitvector_t.select1 (false :: t) k = (sparse_bitvector_t.select1 t k).map (· + 1) := by
  cases k <;> rfl

theorem select1_block_zero (k : Nat) (rest : List Bool) :
    sparse_bitvector_t.select1 (List.replicate k false ++ true :: rest) 0 = some k := by
  induction k with
  | zero => simp [sparse_bitvector_t.select1]
  | succ k ih =>
    rw [List.replicate_succ, List.cons_append, select1_false_cons, ih]
    rfl

theorem select1_block_succ (k : Nat) (rest : List Bool) (j : Nat) :
    sparse_bitvector_t.select1 (List.replicate k false ++ true :: rest) (j + 1)
      = (sparse_bitvector_t.select1 rest j).map (· + (k + 1)) := by
  induction k with
  | zero => simp [sparse_bitvector_t.select1]
  | succ k ih =>
    rw [List.replicate_succ, List.cons_append, select1_false_cons, ih]
    cases sparse_bitvector_t.select1 rest j with
    | none => rfl
    | some v => rfl

theorem after_run_zero (b : sparse_bitvector_t) : after_run b 0 = some 0 := by
  simp [after_run]

theorem after_run_block (k : Nat) (rest : List Bool) (r : Nat) :
    after_run (List.replicate k false ++ true :: rest) (r + 1)
      = (after_run rest r).map (· + (k + 1)) := by
  cases r with
  | zero => simp [after_run, select1_block_zero]
  | succ r =>
    simp only [after_run, Nat.add_sub_cancel, Nat.succ_ne_zero, if_false, select1_block_succ]
    cases sparse_bitvector_t.select1 rest r with
    | none => rfl
    | some v => simp only [Option.map_some']; congr 1; omega

/-! ## Queries on the state of a list of runs, stored run heads -/

section general

variable {α : Type} [DecidableEq α]

theorem expand_cons_length (h : α) (k : Nat) (rs : List (α × Nat)) :
    (expand ((h, k) :: rs)).length = (k + 1) + (expand rs).length := by
  simp [expand]

theorem rank1_run_bits_le (rs : List (α × Nat)) (i : Nat) :
    sparse_bitvector_t.rank1 (run_bits rs) i ≤ rs.length := by
  induction rs generalizing i with
  | nil => simp [run_bits, sparse_bitvector_t.rank1]
  | cons r rs ih =>
    obtain ⟨h, k⟩ := r
    simp only [run_bits, rank1_block, List.length_cons]
    split
    · omega
    · have := ih (i - (k + 1)); omega

theorem rank1_run_bits_lt (rs : List (α × Nat)) (i : Nat) (hi : i < (expand rs).length) :
    sparse_bitvector_t.rank1 (run_bits rs) i < rs.length := by
  induction rs generalizing i with
  | nil => simp [expand] at hi
  | cons r rs ih =>
    obtain ⟨h, k⟩ := r
    rw [expand_cons_length] at hi
    simp only [run_bits, rank1_block, List.length_cons]
    split
    · omega
    · have := ih (i - (k + 1)) (by omega); omega

theorem heads_at_run (rs : List (α × Nat)) (i : Nat) :
    (heads rs)[sparse_bitvector_t.rank1 (run_bits rs) i]? = (expand rs)[i]? := by
  induction rs generalizing i with
  | nil => simp [heads, expand]
  | cons r rs ih =>
    obtain ⟨h, k⟩ := r
    simp only [run_bits, rank1_block, heads, expand, List.map_cons]
    by_cases hik : i ≤ k
    · rw [if_pos hik, List.getElem?_append_left (by simp; omega)]
      simp [List.getElem?_replicate]
      omega
    · rw [if_neg hik, List.getElem?_append_right (by simp; omega)]
      have := ih (i - (k + 1))
      simp only [heads] at this
      simp [Nat.add_comm 1, this]

theorem after_run_run_bits (rs : List (α × Nat)) (i : Nat) :
    after_run (run_bits rs) (sparse_bitvector_t.rank1 (run_bits rs) i)
      = some (run_start rs i) := by
  induction rs generalizing i with
  | nil => simp [run_bits, sparse_bitvector_t.rank1, after_run, run_start]
  | cons r rs ih =>
    obtain ⟨h, k⟩ := r
    simp only [run_bits, rank1_block, run_start]
    by_cases hik : i ≤ k
    · simp [hik, after_run_zero]
    · rw [if_neg hik, if_neg hik, Nat.add_comm 1, after_run_block, ih]
      simp [Nat.add_comm]

theorem after_run_letter_bits (c : α) (rs : List (α × Nat)) (i : Nat) :
    after_run (letter_bits c rs)
        (string_t.rank (heads rs) (sparse_bitvector_t.rank1 (run_bits rs) i) c)
      = some (count_before_run c rs i) := by
  induction rs generalizing i with
  | nil => simp [letter_bits, string_t.rank, heads, after_run, count_before_run]
  | cons r rs ih =>
    obtain ⟨h, k⟩ := r
    simp only [run_bits, rank1_block, count_before_run, letter_bits, heads, List.map_cons]
    by_cases hik : i ≤ k
    · simp [hik, string_t.rank, after_run_zero]
    · have ih2 := ih (i - (k + 1))
      simp only [string_t.rank, heads] at ih2
      rw [if_neg hik, if_neg hik, Nat.add_comm 1]
      simp only [string_t.rank, List.take_succ_cons]
      by_cases hc : h = c
      · subst hc
        rw [List.count_cons_self, if_pos rfl, if_pos rfl, after_run_block, ih2]
        simp [Nat.add_comm]
      · rw [List.count_cons_of_ne (fun e => hc e.symm), if_neg hc, if_neg hc, ih2]
        simp

end general

section positions

variable {α : Type} [DecidableEq α]

theorem count_expand_cons (c h : α) (k : Nat) (rs : List (α × Nat)) :
    (expand ((h, k) :: rs)).count c = (if h = c then k + 1 else 0) + (expand rs).count c := by
  simp only [expand, List.count_append, List.count_replicate]
  by_cases hc : h = c <;> simp [hc]

theorem select_pieces (c : α) (rs : List (α × Nat)) (i : Nat)
    (hi : i < (expand rs).count c) :
    ∃ off j base,
      after_run (letter_bits c rs) (sparse_bitvector_t.rank1 (letter_bits c rs) i) = some off ∧
      string_t.select (heads rs) (sparse_bitvector_t.rank1 (letter_bits c rs) i) c = some j ∧
      after_run (run_bits rs) j = some base ∧
      i - off + base = nth_pos c rs i := by
  induction rs generalizing i with
  | nil => simp [expand] at hi
  | cons r rs ih =>
    obtain ⟨h, k⟩ := r
    rw [count_expand_cons] at hi
    by_cases hc : h = c
    · subst hc
      simp only [letter_bits, ↓reduceIte, rank1_block, nth_pos, heads, List.map_cons] at hi ⊢
      by_cases hik : i ≤ k
      · refine ⟨0, 0, 0, ?_, ?_, ?_, ?_⟩
        · simp [hik, after_run_zero]
        · simp [hik, string_t.select]
        · exact after_run_zero _
        · simp [hik]
      · obtain ⟨off, j, base, h1, h2, h3, h4⟩ := ih (i - (k + 1)) (by omega)
        simp only [heads] at h2
        refine ⟨off + (k + 1), j + 1, base + (k + 1), ?_, ?_, ?_, ?_⟩
        · rw [if_neg hik, Nat.add_comm 1, after_run_block, h1]; rfl
        · rw [if_neg hik, Nat.add_comm 1]
          simp [string_t.select, h2]
        · simp only [run_bits]
          rw [after_run_block, h3]; rfl
        · rw [if_neg hik]; omega
    · simp only [letter_bits, if_neg hc, nth_pos, heads, List.map_cons] at hi ⊢
      obtain ⟨off, j, base, h1, h2, h3, h4⟩ := ih i (by omega)
      simp only [heads] at h2
      refine ⟨off, j + 1, base + (k + 1), h1, ?_, ?_, ?_⟩
      · simp [string_t.select, hc, h2]
      · simp only [run_bits]
        rw [after_run_block, h3]; rfl
      · omega

theorem nth_pos_lt (c : α) (rs : List (α × Nat)) (i : Nat) (hi : i < (expand rs).count c) :
    nth_pos c rs i < (expand rs).length := by
  induction rs generalizing i with
  | nil => simp [expand] at hi
  | cons r rs ih =>
    obtain ⟨h, k⟩ := r
    rw [count_expand_cons] at hi
    rw [expand_cons_length]
    simp only [nth_pos]
    by_cases hc : h = c
    · simp only [hc, if_true] at hi ⊢
      by_cases hik : i ≤ k
      · rw [if_pos hik]; omega
      · rw [if_neg hik]
        have := ih (i - (k + 1)) (by omega)
        omega
    · simp only [hc, if_false] at hi ⊢
      have := ih i (by omega)
      omega

theorem nth_pos_get (c : α) (rs : List (α × Nat)) (i : Nat) (hi : i < (expand rs).count c) :
    (expand rs)[nth_pos c rs i]? = some c := by
  induction rs generalizing i with
  | nil => simp [expand] at hi
  | cons r rs ih =>
    obtain ⟨h, k⟩ := r
    rw [count_expand_cons] at hi
    simp only [nth_pos, expand]
    by_cases hc : h = c
    · simp only [hc, if_true] at hi ⊢
      by_cases hik : i ≤ k
      · rw [if_pos hik, List.getElem?_append_left (by simp; omega)]
        simp [List.getElem?_replicate]; omega
      · rw [if_neg hik, List.getElem?_append_right (by simp)]
        simpa using ih (i - (k + 1)) (by omega)
    · simp only [hc, if_false] at hi ⊢
      rw [List.getElem?_append_right (by simp)]
      simpa using ih i (by omega)

theorem nth_pos_count (c : α) (rs : List (α × Nat)) (i : Nat) (hi : i < (expand rs).count c) :
    ((expand rs).take (nth_pos c rs i)).count c = i := by
  induction rs generalizing i with
  | nil => simp [expand] at hi
  | cons r rs ih =>
    obtain ⟨h, k⟩ := r
    rw [count_expand_cons] at hi
    simp only [nth_pos, expand]
    by_cases hc : h = c
    · simp only [hc, if_true] at hi ⊢
      by_cases hik : i ≤ k
      · rw [if_pos hik, List.take_append_of_le_length (by simp; omega), List.take_replicate,
          List.count_replicate]
        simp; omega
      · rw [if_neg hik, List.take_append_eq_append_take, List.count_append]
        have := ih (i - (k + 1)) (by omega)
        simp [List.take_replicate, List.count_replicate, this]
        omega
    · simp only [hc, if_false] at hi ⊢
      rw [List.take_append_eq_append_take, List.count_append]
      have := ih i (by omega)
      simp [List.take_replicate, List.count_replicate, this, hc]

theorem rank_val_at_nth_pos (c : α) (rs : List (α × Nat)) (i : Nat)
    (hi : i < (expand rs).count c) :
    nth_pos c rs i - run_start rs (nth_pos c rs i) + count_before_run c rs (nth_pos c rs i)
      = i := by
  induction rs generalizing i with
  | nil => simp [expand] at hi
  | cons r rs ih =>
    obtain ⟨h, k⟩ := r
    rw [count_expand_cons] at hi
    simp only [nth_pos]
    by_cases hc : h = c
    · simp only [hc, if_true] at hi ⊢
      by_cases hik : i ≤ k
      · simp [hik, run_start, count_before_run]
      · have := ih (i - (k + 1)) (by omega)
        rw [if_neg hik]
        simp only [run_start, count_before_run, if_true,
          if_neg (show ¬ (k + 1 + nth_pos c rs (i - (k + 1)) ≤ k) by omega),
          Nat.add_sub_cancel_left]
        omega
    · simp only [hc, if_false] at hi ⊢
      have := ih i (by omega)
      simp only [run_start, count_before_run, hc, if_false,
        if_neg (show ¬ (k + 1 + nth_pos c rs i ≤ k) by omega), Nat.add_sub_cancel_left]
      omega

theorem rank_val_total (c : α) (rs : List (α × Nat)) :
    (expand rs).length - run_start rs (expand rs).length
        + count_before_run c rs (expand rs).length
      = (expand rs).count c := by
  induction rs with
  | nil => simp [expand, run_start, count_before_run]
  | cons r rs ih =>
    obtain ⟨h, k⟩ := r
    rw [count_expand_cons, expand_cons_length]
    simp only [run_start, count_before_run,
      if_neg (show ¬ (k + 1 + (expand rs).length ≤ k) by omega), Nat.add_sub_cancel_left]
    omega

theorem run_start_le (rs : List (α × Nat)) (i : Nat) : run_start rs i ≤ i := by
  induction rs generalizing i with
  | nil => simp [run_start]
  | cons r rs ih =>
    obtain ⟨h, k⟩ := r
    simp only [run_start]
    split
    · omega
    · have := ih (i - (k + 1)); omega

theorem count_before_run_le (c : α) (rs : List (α × Nat)) (i : Nat) :
    count_before_run c rs i ≤ run_start rs i := by
  induction rs generalizing i with
  | nil => simp [run_start, count_before_run]
  | cons r rs ih =>
    obtain ⟨h, k⟩ := r
    simp only [run_start, count_before_run]
    split
    · omega
    · have := ih (i - (k + 1))
      split <;> omega

end positions

/-! ## Alternating run heads: the closed forms of the boolean instantiation -/

theorem alt_length (b : Bool) (m : Nat) : (alt b m).length = m := by
  induction m generalizing b with
  | zero => rfl
  | succ m ih => simp [alt, ih]

theorem alt_getElem? (b : Bool) (m j : Nat) :
    (alt b m)[j]? = if j < m then some (xor (j % 2 == 1) b) else none := by
  induction m generalizing b j with
  | zero => simp [alt]
  | succ m ih =>
    cases j with
    | zero => simp [alt]
    | succ j =>
      simp only [alt, List.getElem?_cons_succ, ih, Nat.add_lt_add_iff_right]
      split
      · rcases Nat.mod_two_eq_zero_or_one j with h | h
        · have h2 : (j + 1) % 2 = 1 := by omega
          simp [h, h2]
        · have h2 : (j + 1) % 2 = 0 := by omega
          simp [h, h2]
      · rfl

theorem alt_rank (b c : Bool) (m j : Nat) (hj : j ≤ m) :
    string_t.rank (alt b m) j c = (j + (xor b (!c)).toNat) / 2 := by
  induction m generalizing b j with
  | zero =>
    have : j = 0 := by omega
    subst this
    cases b <;> cases c <;> simp [string_t.rank]
  | succ m ih =>
    cases j with
    | zero => cases b <;> cases c <;> simp [string_t.rank]
    | succ j =>
      have h := ih (!b) j (by omega)
      simp only [string_t.rank] at h
      simp only [string_t.rank, alt, List.take_succ_cons]
      cases b <;> cases c <;> simp [List.count_cons] at h ⊢ <;> omega

theorem alt_select (b c : Bool) (m k : Nat) (hk : k < m / 2) :
    string_t.select (alt b m) k c = some (k * 2 + (xor c b).toNat) := by
  induction k generalizing m with
  | zero =>
    obtain ⟨m, rfl⟩ : ∃ m2, m = m2 + 2 := ⟨m - 2, by omega⟩
    cases b <;> cases c <;> simp [alt, string_t.select]
  | succ k ih =>
    obtain ⟨m, rfl⟩ : ∃ m2, m = m2 + 2 := ⟨m - 2, by omega⟩
    have h := ih m (by omega)
    cases b <;> cases c <;> simp [alt, string_t.select] at h ⊢ <;> simp [h] <;> omega

theorem alt_of_no_adjacent_dup (l : List Bool) (h : no_adjacent_dup l = true) :
    l = alt (l.head?.getD false) l.length := by
  induction l with
  | nil => rfl
  | cons a t ih =>
    cases t with
    | nil => simp [alt]
    | cons b t =>
      simp only [no_adjacent_dup, Bool.and_eq_true, bne_iff_ne, ne_eq] at h
      have h2 := ih h.2
      simp only [List.head?_cons, Option.getD_some, List.length_cons] at h2 ⊢
      have hb : b = !a := by
        cases a <;> cases b <;> simp_all
      subst hb
      rw [alt]
      exact congrArg _ h2

/-! ## Run decomposition of a string -/

section decomposition

variable {α : Type} [DecidableEq α]

theorem expand_runs_of (s : List α) : expand (runs_of s) = s := by
  induction s with
  | nil => rfl
  | cons a t ih =>
    simp only [runs_of]
    cases hr : runs_of t with
    | nil =>
      rw [hr] at ih
      simp only [expand] at ih ⊢
      simp [← ih]
    | cons r rs =>
      obtain ⟨b, k⟩ := r
      rw [hr] at ih
      simp only
      split
      · rename_i hab
        subst hab
        rw [← ih]
        simp [expand, List.replicate_succ]
      · rw [← ih]
        simp [expand]

theorem no_adjacent_dup_runs_of (s : List α) : no_adjacent_dup (heads (runs_of s)) = true := by
  induction s with
  | nil => rfl
  | cons a t ih =>
    simp only [runs_of]
    cases hr : runs_of t with
    | nil => rfl
    | cons r rs =>
      obtain ⟨b, k⟩ := r
      rw [hr] at ih
      simp only
      split
      · exact ih
      · rename_i hab
        simp only [heads, List.map_cons, no_adjacent_dup, Bool.and_eq_true, bne_iff_ne, ne_eq]
        exact ⟨hab, ih⟩

end decomposition

/-! ## The run-head layer of the state of a list of runs -/

section run_heads

variable {α : Type} [inst : DecidableEq α]

theorem to_bool_bool : char_kind.to_bool char_kind.bool = id := by
  funext c; rfl

theorem run_heads_at_of_runs (T : char_kind α) (rs : List (α × Nat))
    (hw : T.is_bool = true → no_adjacent_dup (heads rs) = true) (j : Nat) :
    run_heads_at T (of_runs T rs) j = (heads rs)[j]? := by
  cases T with
  | other =>
    simp only [run_heads_at, of_runs, char_kind.is_bool, string_t.access]
    split
    · simp
    · rw [List.getElem?_eq_none]; simp [heads]; omega
  | bool =>
    have hi : inst = instDecidableEqBool := Subsingleton.elim _ _
    subst hi
    have hh := alt_of_no_adjacent_dup (heads rs) (hw rfl)
    have hl : (heads rs).length = rs.length := by simp [heads]
    rw [hl] at hh
    rw [hh, alt_getElem?]
    simp [run_heads_at, of_runs, char_kind.is_bool, char_kind.of_bool, to_bool_bool]

theorem run_heads_rank_of_runs (T : char_kind α) (rs : List (α × Nat))
    (hw : T.is_bool = true → no_adjacent_dup (heads rs) = true) (j : Nat) (c : α)
    (hj : j ≤ rs.length) :
    run_heads_rank T (of_runs T rs) j c = some (string_t.rank (heads rs) j c) := by
  cases T with
  | other => simp [run_heads_rank, of_runs, char_kind.is_bool, hj]
  | bool =>
    have hi : inst = instDecidableEqBool := Subsingleton.elim _ _
    subst hi
    have hh := alt_of_no_adjacent_dup (heads rs) (hw rfl)
    have hl : (heads rs).length = rs.length := by simp [heads]
    rw [hl] at hh
    rw [hh, alt_rank _ _ _ _ hj]
    simp [run_heads_rank, of_runs, char_kind.is_bool, to_bool_bool, char_kind.to_bool, hj]

theorem run_heads_select_of_runs (T : char_kind α) (rs : List (α × Nat))
    (hw : T.is_bool = true → no_adjacent_dup (heads rs) = true) (k : Nat) (c : α) (j : Nat)
    (h : run_heads_select T (of_runs T rs) k c = some j) :
    string_t.select (heads rs) k c = some j := by
  cases T with
  | other => simpa [run_heads_select, of_runs, char_kind.is_bool] using h
  | bool =>
    have hi : inst = instDecidableEqBool := Subsingleton.elim _ _
    subst hi
    have hh := alt_of_no_adjacent_dup (heads rs) (hw rfl)
    have hl : (heads rs).length = rs.length := by simp [heads]
    rw [hl] at hh
    simp only [run_heads_select, of_runs, char_kind.is_bool, to_bool_bool, char_kind.to_bool,
      if_true, Bool.true_and, Option.map_id_fun, id] at h
    split at h
    · rename_i hk
      rw [hh, alt_select _ _ _ _ hk]
      simpa using h
    · cases h

theorem run_heads_select_other (rs : List (α × Nat)) (k : Nat) (c : α) :
    run_heads_select (char_kind.other α) (of_runs (char_kind.other α) rs) k c
      = string_t.select (heads rs) k c := by
  simp [run_heads_select, of_runs, char_kind.is_bool]

end run_heads

/-! ## Queries on the state of a list of runs -/

section queries

variable {α : Type} [DecidableEq α]

theorem at_of_runs (T : char_kind α) (rs : List (α × Nat))
    (hw : T.is_bool = true → no_adjacent_dup (heads rs) = true) (i : Nat) :
    at_ T (of_runs T rs) i = (expand rs)[i]? := by
  unfold at_
  by_cases hi : i < (expand rs).length
  · have h1 : i < (of_runs T rs).n := hi
    rw [if_pos h1, run_heads_at_of_runs T rs hw]
    exact heads_at_run rs i
  · have h1 : ¬ i < (of_runs T rs).n := hi
    rw [if_neg h1, List.getElem?_eq_none (by omega)]

theorem rank_of_runs (T : char_kind α) (rs : List (α × Nat))
    (hw : T.is_bool = true → no_adjacent_dup (heads rs) = true) (i : Nat) (c : α)
    (hi : i ≤ (expand rs).length) :
    rank T (of_runs T rs) i c = some (i - run_start rs i + count_before_run c rs i) := by
  unfold rank
  have h1 : i ≤ (of_runs T rs).size := hi
  rw [if_pos h1]
  have h2 : (of_runs T rs).runs = run_bits rs := rfl
  have h3 : (of_runs T rs).runs_per_letter c = letter_bits c rs := rfl
  dsimp only
  rw [h2, h3, run_heads_rank_of_runs T rs hw _ c (rank1_run_bits_le rs i)]
  simp only [Option.bind_eq_bind, Option.some_bind]
  rw [after_run_run_bits, after_run_letter_bits]
  rfl

theorem rank_of_runs_size (T : char_kind α) (rs : List (α × Nat))
    (hw : T.is_bool = true → no_adjacent_dup (heads rs) = true) (c : α) :
    rank T (of_runs T rs) (of_runs T rs).size c = some ((expand rs).count c) := by
  have h : (of_runs T rs).size = (expand rs).length := rfl
  rw [h, rank_of_runs T rs hw _ c (Nat.le_refl _), rank_val_total]

theorem select_of_runs (T : char_kind α) (rs : List (α × Nat))
    (hw : T.is_bool = true → no_adjacent_dup (heads rs) = true) (i : Nat) (c : α) (p : Nat)
    (h : select T (of_runs T rs) i c = some p) :
    i < (expand rs).count c ∧ p = nth_pos c rs i := by
  unfold select at h
  rw [rank_of_runs_size T rs hw c] at h
  simp only [Option.bind_eq_bind, Option.some_bind] at h
  split at h
  · rename_i hi
    refine ⟨hi, ?_⟩
    obtain ⟨off, j, base, h1, h2, h3, h4⟩ := select_pieces c rs i hi
    have e3 : (of_runs T rs).runs_per_letter c = letter_bits c rs := rfl
    have e2 : (of_runs T rs).runs = run_bits rs := rfl
    rw [e3, e2, h1] at h
    simp only [Option.some_bind] at h
    cases hs : run_heads_select T (of_runs T rs) (sparse_bitvector_t.rank1 (letter_bits c rs) i) c with
    | none => rw [hs] at h; cases h
    | some j2 =>
      rw [hs] at h
      have := run_heads_select_of_runs T rs hw _ c j2 hs
      rw [h2] at this
      cases this
      simp only [Option.some_bind, h3] at h
      cases h
      exact h4
  · cases h

theorem select_of_runs_other (rs : List (α × Nat)) (i : Nat) (c : α)
    (hi : i < (expand rs).count c) :
    select (char_kind.other α) (of_runs (char_kind.other α) rs) i c = some (nth_pos c rs i) := by
  unfold select
  rw [rank_of_runs_size _ rs (by simp [char_kind.is_bool]) c]
  simp only [Option.bind_eq_bind, Option.some_bind, if_pos hi]
  obtain ⟨off, j, base, h1, h2, h3, h4⟩ := select_pieces c rs i hi
  have e3 : (of_runs (char_kind.other α) rs).runs_per_letter c = letter_bits c rs := rfl
  have e2 : (of_runs (char_kind.other α) rs).runs = run_bits rs := rfl
  rw [e3, e2, h1, run_heads_select_other, h2]
  simp only [Option.some_bind, h3, h4]

end queries

/-! ## Queries on the state that encodes a string -/

section encoded

variable {α : Type} [DecidableEq α]

theorem encode_wf (T : char_kind α) (s : List α) :
    T.is_bool = true → no_adjacent_dup (heads (runs_of s)) = true :=
  fun _ => no_adjacent_dup_runs_of s

theorem encode_size (T : char_kind α) (s : List α) : (encode T s).size = s.length := by
  show (expand (runs_of s)).length = s.length
  rw [expand_runs_of]

theorem at_encode_eq (T : char_kind α) (s : List α) (i : Nat) :
    at_ T (encode T s) i = s[i]? := by
  unfold encode
  rw [at_of_runs T _ (encode_wf T s), expand_runs_of]

theorem rank_encode_eq (T : char_kind α) (s : List α) (i : Nat) (c : α) (hi : i ≤ s.length) :
    rank T (encode T s) i c
      = some (i - run_start (runs_of s) i + count_before_run c (runs_of s) i) := by
  unfold encode
  rw [rank_of_runs T _ (encode_wf T s) i c (by rw [expand_runs_of]; exact hi)]

theorem rank_encode_size (T : char_kind α) (s : List α) (c : α) :
    rank T (encode T s) (encode T s).size c = some (s.count c) := by
  unfold encode
  rw [rank_of_runs_size T _ (encode_wf T s), expand_runs_of]

theorem rank_encode_none (T : char_kind α) (s : List α) (i : Nat) (c : α) (hi : s.length < i) :
    rank T (encode T s) i c = none := by
  unfold rank
  rw [encode_size, if_neg (by omega)]

/-- The boolean instantiation and the instantiation with stored run heads give
the same `at` and the same `rank` on every bit sequence, at every position. -/
theorem bool_at_rank_agree (s : List Bool) (i : Nat) (b : Bool) :
    at_ char_kind.bool (encode char_kind.bool s) i
        = at_ (char_kind.other Bool) (encode (char_kind.other Bool) s) i ∧
      rank char_kind.bool (encode char_kind.bool s) i b
        = rank (char_kind.other Bool) (encode (char_kind.other Bool) s) i b := by
  refine ⟨by rw [at_encode_eq, at_encode_eq], ?_⟩
  by_cases hi : i ≤ s.length
  · rw [rank_encode_eq _ s i b hi, rank_encode_eq _ s i b hi]
  · rw [rank_encode_none _ s i b (by omega), rank_encode_none _ s i b (by omega)]

/-- Whenever `select` of the boolean instantiation returns a position, the
instantiation with stored run heads returns the same one. -/
theorem bool_select_agree (s : List Bool) (i : Nat) (b : Bool) (p : Nat)
    (h : select char_kind.bool (encode char_kind.bool s) i b = some p) :
    select (char_kind.other Bool) (encode (char_kind.other Bool) s) i b = some p := by
  obtain ⟨hi, hp⟩ := select_of_runs _ _ (encode_wf _ s) i b p h
  unfold encode
  rw [select_of_runs_other _ i b hi, hp]

end encoded

/-! ## The run that holds a position -/

section run_of_position

variable {α : Type} [DecidableEq α]

theorem expand_cons_get_left (h : α) (k : Nat) (rs : List (α × Nat)) (i : Nat) (hi : i ≤ k) :
    (expand ((h, k) :: rs))[i]? = some h := by
  simp only [expand]
  rw [List.getElem?_append_left (by simp; omega)]
  simp [List.getElem?_replicate]
  omega

theorem expand_cons_get_right (h : α) (k : Nat) (rs : List (α × Nat)) (i : Nat) (hi : k < i) :
    (expand ((h, k) :: rs))[i]? = (expand rs)[i - (k + 1)]? := by
  simp only [expand]
  rw [List.getElem?_append_right (by simp; omega)]
  simp

theorem count_take_run_start (c : α) (rs : List (α × Nat)) (i : Nat) :
    ((expand rs).take (run_start rs i)).count c = count_before_run c rs i := by
  induction rs generalizing i with
  | nil => simp [expand, count_before_run]
  | cons r rs ih =>
    obtain ⟨h, k⟩ := r
    simp only [run_start, count_before_run, expand]
    by_cases hik : i ≤ k
    · simp [hik]
    · rw [if_neg hik, if_neg hik, List.take_append_eq_append_take, List.count_append]
      have := ih (i - (k + 1))
      by_cases hc : h = c <;>
        simp [List.take_replicate, List.count_replicate, this, hc]

theorem count_take_position (c : α) (rs : List (α × Nat)) (i : Nat) :
    ((expand rs).take i).count c
      = count_before_run c rs i
        + (if (expand rs)[i]? = some c then i - run_start rs i else 0) := by
  induction rs generalizing i with
  | nil => simp [expand, count_before_run]
  | cons r rs ih =>
    obtain ⟨h, k⟩ := r
    by_cases hik : i ≤ k
    · rw [expand_cons_get_left h k rs i hik]
      simp only [run_start, count_before_run, expand, if_pos hik]
      rw [List.take_append_of_le_length (by simp; omega), List.take_replicate,
        List.count_replicate]
      by_cases hc : h = c
      · simp [hc]; omega
      · have : ¬ (h == c) = true := by simpa using hc
        simp [hc, this]
    · rw [expand_cons_get_right h k rs i (by omega)]
      simp only [run_start, count_before_run, expand, if_neg hik]
      rw [List.take_append_eq_append_take, List.count_append, List.length_replicate,
        ih (i - (k + 1))]
      have e : k + 1 + run_start rs (i - (k + 1)) ≤ i := by
        have := run_start_le rs (i - (k + 1)); omega
      by_cases hc : h = c
      · simp [List.take_replicate, List.count_replicate, hc]
        split <;> omega
      · have : ¬ (h == c) = true := by simpa using hc
        simp [List.take_replicate, List.count_replicate, hc, this]
        split <;> omega

theorem run_start_length (rs : List (α × Nat)) :
    run_start rs (expand rs).length = (expand rs).length := by
  induction rs with
  | nil => simp [expand, run_start]
  | cons r rs ih =>
    obtain ⟨h, k⟩ := r
    rw [expand_cons_length]
    simp only [run_start, if_neg (show ¬ (k + 1 + (expand rs).length ≤ k) by omega),
      Nat.add_sub_cancel_left, ih]

theorem run_same_symbol (rs : List (α × Nat)) (i j : Nat)
    (hp : run_start rs i ≤ j) (hj : j ≤ i) :
    (expand rs)[j]? = (expand rs)[i]? ∨ (expand rs).length ≤ i := by
  induction rs generalizing i j with
  | nil => right; simp [expand]
  | cons r rs ih =>
    obtain ⟨h, k⟩ := r
    simp only [run_start] at hp
    by_cases hik : i ≤ k
    · left
      rw [expand_cons_get_left h k rs i hik, expand_cons_get_left h k rs j (by omega)]
    · rw [if_neg hik] at hp
      rw [expand_cons_get_right h k rs i (by omega), expand_cons_get_right h k rs j (by omega),
        expand_cons_length]
      rcases ih (i - (k + 1)) (j - (k + 1)) (by omega) (by omega) with e | e
      · exact Or.inl e
      · right; omega

theorem no_adjacent_dup_tail (a : α) (t : List α) (h : no_adjacent_dup (a :: t) = true) :
    no_adjacent_dup t = true := by
  cases t with
  | nil => rfl
  | cons b t =>
    simp only [no_adjacent_dup, Bool.and_eq_true] at h
    exact h.2

theorem run_is_maximal (rs : List (α × Nat)) (hd : no_adjacent_dup (heads rs) = true) (i : Nat)
    (hi : i < (expand rs).length) (hp : 0 < run_start rs i) :
    (expand rs)[run_start rs i - 1]? ≠ (expand rs)[i]? := by
  induction rs generalizing i with
  | nil => simp [expand] at hi
  | cons r rs ih =>
    obtain ⟨h, k⟩ := r
    rw [expand_cons_length] at hi
    simp only [run_start] at hp ⊢
    by_cases hik : i ≤ k
    · rw [if_pos hik] at hp; omega
    · rw [if_neg hik]
      rw [expand_cons_get_right h k rs i (by omega)]
      have hd2 : no_adjacent_dup (heads rs) = true := no_adjacent_dup_tail h _ hd
      by_cases hp0 : run_start rs (i - (k + 1)) = 0
      · rw [hp0]
        rw [show k + 1 + 0 - 1 = k by omega, expand_cons_get_left h k rs k (Nat.le_refl k)]
        cases rs with
        | nil => simp [expand] at hi; omega
        | cons r2 rs2 =>
          obtain ⟨h2, k2⟩ := r2
          simp only [run_start] at hp0
          have hle : i - (k + 1) ≤ k2 := by
            by_contra hc
            rw [if_neg hc] at hp0
            omega
          rw [expand_cons_get_left h2 k2 rs2 _ hle]
          simp only [heads, List.map_cons, no_adjacent_dup, Bool.and_eq_true, bne_iff_ne,
            ne_eq] at hd
          intro e
          exact hd.1 (Option.some.inj e)
      · have := ih hd2 (i - (k + 1)) (by omega) (by omega)
        rw [expand_cons_get_right h k rs _ (by omega)]
        rw [show k + 1 + run_start rs (i - (k + 1)) - 1 - (k + 1)
          = run_start rs (i - (k + 1)) - 1 by omega]
        exact this

end run_of_position

/-! ## The run-head mutation primitives -/

section mutation

variable {α : Type} [inst : DecidableEq α]

theorem string_insert_length (s : string_t α) (i : Nat) (c : α) :
    (string_t.insert s i c).length = s.length + 1 := by
  simp only [string_t.insert, List.length_append, List.length_cons, List.length_take,
    List.length_drop]
  omega

theorem run_heads_insert_effect (T : char_kind α) (st : rle_string α) (i : Nat) (c : α)
    (st2 : rle_string α) (h : run_heads_insert T st i c = some st2) :
    st2.n = st.n ∧ st2.R = st.R ∧ st2.runs = st.runs ∧
      st2.runs_per_letter = st.runs_per_letter ∧
      st2.run_heads_size = st.run_heads_size + 1 ∧
      (T.is_bool = false → st2.run_heads_.length = st.run_heads_.length + 1) := by
  unfold run_heads_insert at h
  split at h
  · split at h
    · split at h
      · split at h
        · cases h
          rename_i hb
          simp [hb]
        · cases h
          simp [string_insert_length]
      · cases h
    · cases h
  · cases h

theorem run_heads_split_effect (T : char_kind α) (st : rle_string α) (i : Nat) (c : α)
    (st2 : rle_string α) (h : run_heads_split T st i c = some st2) :
    st2.n = st.n ∧ st2.R = st.R ∧ st2.runs = st.runs ∧
      st2.runs_per_letter = st.runs_per_letter ∧
      st2.run_heads_size = st.run_heads_size + 2 ∧
      (T.is_bool = false → st2.run_heads_.length = st.run_heads_.length + 2) := by
  unfold run_heads_split at h
  split at h
  · split at h
    · cases h
    · split at h
      · split at h
        · cases h
          rename_i hb
          simp [hb]
        · cases h
          simp [string_insert_length]
      · cases h
  · cases h

theorem apply_calls_effect (T : char_kind α) (ks : List (run_heads_call α))
    (st st2 : rle_string α) (h : apply_calls T st ks = some st2) :
    st2.R = st.R ∧ st2.run_heads_size = st.run_heads_size + heads_added ks ∧
      (T.is_bool = false → st2.run_heads_.length = st.run_heads_.length + heads_added ks) := by
  induction ks generalizing st with
  | nil =>
    simp only [apply_calls, Option.some.injEq] at h
    subst h
    simp [heads_added]
  | cons k ks ih =>
    simp only [apply_calls] at h
    cases hk : run_heads_call.apply T st k with
    | none => rw [hk] at h; cases h
    | some st1 =>
      rw [hk] at h
      have h2 := ih st1 h
      cases k with
      | insert i c =>
        have h1 := run_heads_insert_effect T st i c st1 hk
        refine ⟨by rw [h2.1, h1.2.1], ?_, ?_⟩
        · rw [h2.2.1, h1.2.2.2.2.1]; simp only [heads_added]; omega
        · intro hb
          rw [h2.2.2 hb, h1.2.2.2.2.2 hb]; simp only [heads_added]; omega
      | split i c =>
        have h1 := run_heads_split_effect T st i c st1 hk
        refine ⟨by rw [h2.1, h1.2.1], ?_, ?_⟩
        · rw [h2.2.1, h1.2.2.2.2.1]; simp only [heads_added]; omega
        · intro hb
          rw [h2.2.2 hb, h1.2.2.2.2.2 hb]; simp only [heads_added]; omega

theorem read_heads_length (T : char_kind α) (st : rle_string α) :
    (read_heads T st).length = st.run_heads_size := by
  simp [read_heads]

theorem parity_succ (j : Nat) : ((j + 1) % 2 == 1) = !(j % 2 == 1) := by
  rcases Nat.mod_two_eq_zero_or_one j with h | h
  · have h2 : (j + 1) % 2 = 1 := by omega
    simp [h, h2]
  · have h2 : (j + 1) % 2 = 0 := by omega
    simp [h, h2]

theorem run_heads_at_bool (st : rle_string Bool) (j : Nat) :
    run_heads_at char_kind.bool st j
      = if j < st.run_heads_size then some (xor (j % 2 == 1) st.run_heads_first_bit)
        else none := by
  simp [run_heads_at, char_kind.is_bool, char_kind.of_bool]

theorem run_heads_at_other (st : rle_string α) (j : Nat) :
    run_heads_at (char_kind.other α) st j
      = if j < st.run_heads_size then st.run_heads_[j]? else none := by
  simp [run_heads_at, char_kind.is_bool, string_t.access]

theorem run_heads_at_of_heads (T : char_kind α) (h : List α)
    (hw : T.is_bool = true → no_adjacent_dup h = true) (j : Nat) :
    run_heads_at T (of_heads T h) j = h[j]? := by
  cases T with
  | other =>
    rw [run_heads_at_other]
    simp only [of_heads, char_kind.is_bool]
    split
    · simp
    · rw [List.getElem?_eq_none]; omega
  | bool =>
    have hi : inst = instDecidableEqBool := Subsingleton.elim _ _
    subst hi
    have hh := alt_of_no_adjacent_dup h (hw rfl)
    rw [run_heads_at_bool]
    conv => rhs; rw [hh, alt_getElem?]
    simp [of_heads, char_kind.is_bool, to_bool_bool]

theorem split_insert_list (h : List α) (i : Nat) (c r : α) (hi : i < h.length) :
    string_t.insert (string_t.insert h (i + 1) r) (i + 1) c
      = h.take (i + 1) ++ c :: r :: h.drop (i + 1) := by
  simp only [string_t.insert]
  rw [List.take_append_of_le_length (by simp; omega), List.take_take, Nat.min_self,
    List.drop_append_of_le_length (by simp; omega)]
  rw [List.drop_eq_nil_of_le (by simp)]
  simp

theorem split_list_get (h : List α) (i : Nat) (c r : α) (hr : h[i]? = some r) :
    (h.take (i + 1) ++ c :: r :: h.drop (i + 1))[i]? = some r ∧
      (h.take (i + 1) ++ c :: r :: h.drop (i + 1))[i + 1]? = some c ∧
      (h.take (i + 1) ++ c :: r :: h.drop (i + 1))[i + 2]? = some r ∧
      (∀ j, j < i → (h.take (i + 1) ++ c :: r :: h.drop (i + 1))[j]? = h[j]?) ∧
      (∀ j, i < j → (h.take (i + 1) ++ c :: r :: h.drop (i + 1))[j + 2]? = h[j]?) := by
  have hi : i < h.length := by
    by_contra hc
    rw [List.getElem?_eq_none (by omega)] at hr
    cases hr
  have hl : (h.take (i + 1)).length = i + 1 := by simp; omega
  refine ⟨?_, ?_, ?_, ?_, ?_⟩
  · rw [List.getElem?_append_left (by omega), List.getElem?_take_of_lt (by omega), hr]
  · rw [List.getElem?_append_right (by omega), hl]; simp
  · rw [List.getElem?_append_right (by omega), hl]
    simp [show i + 2 - (i + 1) = 1 by omega]
  · intro j hj
    rw [List.getElem?_append_left (by omega), List.getElem?_take_of_lt (by omega)]
  · intro j hj
    rw [List.getElem?_append_right (by omega), hl]
    obtain ⟨d, rfl⟩ : ∃ d, j = i + 1 + d := ⟨j - (i + 1), by omega⟩
    rw [show i + 1 + d + 2 - (i + 1) = d + 2 by omega]
    simp

end mutation

section split_of_heads

variable {α : Type} [inst : DecidableEq α]

theorem of_heads_size (T : char_kind α) (h : List α) :
    (of_heads T h).run_heads_size = h.length := rfl

theorem run_heads_split_of_heads (T : char_kind α) (h : List α)
    (hw : T.is_bool = true → no_adjacent_dup h = true) (i : Nat) (c r : α)
    (hr : h[i]? = some r) (hc : r ≠ c) :
    ∃ st2, run_heads_split T (of_heads T h) i c = some st2 ∧
      st2.run_heads_size = h.length + 2 ∧
      st2.run_heads_first_bit = (of_heads T h).run_heads_first_bit ∧
      (T.is_bool = false → st2.run_heads_ = h.take (i + 1) ++ c :: r :: h.drop (i + 1)) := by
  have hi : i < h.length := by
    by_contra hcon
    rw [List.getElem?_eq_none (by omega)] at hr
    cases hr
  have hsz : i < (of_heads T h).run_heads_size := hi
  unfold run_heads_split
  rw [if_pos hsz, run_heads_at_of_heads T h hw i, hr]
  simp only [ne_eq, hc, not_false_eq_true, if_true]
  cases T with
  | other =>
    refine ⟨_, rfl, rfl, rfl, fun _ => ?_⟩
    exact split_insert_list h i c r hi
  | bool =>
    exact ⟨_, rfl, rfl, rfl, fun hb => by cases hb⟩

theorem run_heads_split_refused (T : char_kind α) (h : List α)
    (hw : T.is_bool = true → no_adjacent_dup h = true) (i : Nat) (c : α)
    (hr : h.length ≤ i ∨ h[i]? = some c) :
    run_heads_split T (of_heads T h) i c = none := by
  unfold run_heads_split
  by_cases hsz : i < (of_heads T h).run_heads_size
  · rw [if_pos hsz, run_heads_at_of_heads T h hw i]
    rcases hr with hr | hr
    · rw [of_heads_size] at hsz; omega
    · rw [hr]; simp
  · rw [if_neg hsz]

theorem run_heads_after_split (T : char_kind α) (h : List α)
    (hw : T.is_bool = true → no_adjacent_dup h = true) (i : Nat) (c r : α)
    (hr : h[i]? = some r) (hc : r ≠ c) (st2 : rle_string α)
    (hs : st2.run_heads_size = h.length + 2)
    (hf : st2.run_heads_first_bit = (of_heads T h).run_heads_first_bit)
    (hl : T.is_bool = false → st2.run_heads_ = h.take (i + 1) ++ c :: r :: h.drop (i + 1)) :
    run_heads_at T st2 i = some r ∧ run_heads_at T st2 (i + 1) = some c ∧
      run_heads_at T st2 (i + 2) = some r ∧
      (∀ j, j < i → run_heads_at T st2 j = h[j]?) ∧
      (∀ j, i < j → run_heads_at T st2 (j + 2) = h[j]?) := by
  have hi : i < h.length := by
    by_contra hcon
    rw [List.getElem?_eq_none (by omega)] at hr
    cases hr
  cases T with
  | other =>
    have hl2 := hl rfl
    obtain ⟨g1, g2, g3, g4, g5⟩ := split_list_get h i c r hr
    simp only [run_heads_at_other, hs, hl2]
    refine ⟨?_, ?_, ?_, ?_, ?_⟩
    · rw [if_pos (by omega), g1]
    · rw [if_pos (by omega), g2]
    · rw [if_pos (by omega), g3]
    · intro j hj; rw [if_pos (by omega), g4 j hj]
    · intro j hj
      by_cases hjm : j < h.length
      · rw [if_pos (by omega), g5 j hj]
      · rw [if_neg (by omega), List.getElem?_eq_none (by omega)]
  | bool =>
    have hinst : inst = instDecidableEqBool := Subsingleton.elim _ _
    subst hinst
    have key : ∀ j, h[j]? = if j < h.length then
        some (xor (j % 2 == 1) (of_heads char_kind.bool h).run_heads_first_bit) else none := by
      intro j
      rw [← run_heads_at_of_heads char_kind.bool h hw j, run_heads_at_bool, of_heads_size]
    rw [key i, if_pos hi] at hr
    have hr2 := Option.some.inj hr
    simp only [run_heads_at_bool, hs, hf, key]
    refine ⟨?_, ?_, ?_, ?_, ?_⟩
    · rw [if_pos (by omega), hr2]
    · rw [if_pos (by omega), parity_succ]
      rw [← hr2] at hc
      revert hc
      cases (i % 2 == 1) <;> cases (of_heads char_kind.bool h).run_heads_first_bit <;>
        cases c <;> simp
    · rw [if_pos (by omega), parity_succ, parity_succ, Bool.not_not, hr2]
    · intro j hj; rw [if_pos (by omega), if_pos (by omega)]
    · intro j hj
      rw [parity_succ, parity_succ]
      by_cases hjm : j < h.length
      · rw [if_pos (by omega), if_pos hjm]; simp
      · rw [if_neg (by omega), if_neg hjm]

end split_of_heads

/-! ## The 64-bit arithmetic of `run_heads_rank` and `run_heads_split` -/

section ulint

variable {α : Type} [inst : DecidableEq α]

theorem run_heads_split_ulint_eq (T : char_kind α) (st : rle_string α) (i : Nat) (c : α)
    (hm : st.run_heads_size + 2 < 2 ^ 64) :
    run_heads_split_ulint T st i c = run_heads_split T st i c := by
  unfold run_heads_split_ulint run_heads_split
  rw [Nat.mod_eq_of_lt hm]

theorem run_heads_split_ulint_refused (T : char_kind α) (st : rle_string α) (i : Nat) (c : α)
    (h : run_heads_split T st i c = none) : run_heads_split_ulint T st i c = none := by
  unfold run_heads_split at h
  unfold run_heads_split_ulint
  split
  · rename_i hsz
    rw [if_pos hsz] at h
    split
    · rfl
    · rename_i r hr
      rw [hr] at h
      simp only at h
      split
      · rename_i hc
        rw [if_pos hc] at h
        split at h <;> cases h
      · rfl
  · rfl

theorem run_heads_rank_ulint_eq (T : char_kind α) (st : rle_string α) (i : Nat) (c : α)
    (hm : i + 1 < 2 ^ 64) :
    run_heads_rank_ulint T st i c = run_heads_rank T st i c := by
  unfold run_heads_rank_ulint run_heads_rank
  have hx : (xor st.run_heads_first_bit (!T.to_bool c)).toNat ≤ 1 := Bool.toNat_le _
  rw [Nat.mod_eq_of_lt (by omega)]

theorem run_heads_rank_ulint_bool (st : rle_string Bool) (j : Nat) (c : Bool)
    (hj : j ≤ st.run_heads_size) :
    run_heads_rank_ulint char_kind.bool st j c
      = some ((j + (xor st.run_heads_first_bit (!c)).toNat) % 2 ^ 64 / 2) := by
  simp [run_heads_rank_ulint, char_kind.is_bool, to_bool_bool, hj]

theorem no_adjacent_dup_alt (f : Bool) (m : Nat) : no_adjacent_dup (alt f m) = true := by
  induction m generalizing f with
  | zero => rfl
  | succ m ih =>
    cases m with
    | zero => rfl
    | succ m =>
      have := ih (!f)
      simp only [alt] at this ⊢
      simp only [no_adjacent_dup, Bool.and_eq_true, bne_iff_ne, ne_eq]
      exact ⟨by cases f <;> simp, this⟩

theorem of_heads_bool_alt (f : Bool) (m : Nat) :
    of_heads char_kind.bool (alt f (m + 1)) = bool_heads f (m + 1) := by
  simp [of_heads, bool_heads, rle_string.empty, alt, alt_length, char_kind.is_bool,
    to_bool_bool]

end ulint

/-! ## The claims -/

section claims

variable {α : Type} [DecidableEq α]

/-- Claim C1, evaluated on the code: on the state that encodes `aab`,
`rank(1, b)` returns 1, although `b` does not occur in positions `[0, 1)`.
The offset of position `i` inside its run is added whatever the head of that
run is. -/
theorem rank_miscounts_inside_other_run :
    rank (char_kind.other Char) (encode (char_kind.other Char) ['a', 'a', 'b']) 1 'b' = some 1 ∧
      (['a', 'a', 'b'].take 1).count 'b' = 0 := by
  decide

/-- Claim C2: on the state that encodes a string `s`, for every `i < n` the
call `at(i)` succeeds and returns `s[i]`; the value is the run head at index
`runs.rank1(i)`. -/
theorem at_returns_symbol (T : char_kind α) (s : List α) (i : Nat) (hi : i < s.length) :
    at_ T (encode T s) i = some s[i] ∧
      at_ T (encode T s) i = run_heads_at T (encode T s) ((encode T s).runs.rank1 i) := by
  constructor
  · rw [at_encode_eq, List.getElem?_eq_getElem hi]
  · have h : i < (encode T s).n := by
      have := encode_size T s
      unfold size at this
      omega
    unfold at_
    rw [if_pos h]

theorem at_returns_symbol_witness :
    4 < ['a', 'a', 'a', 'b', 'b', 'a', 'c'].length ∧
      at_ (char_kind.other Char)
        (encode (char_kind.other Char) ['a', 'a', 'a', 'b', 'b', 'a', 'c']) 4 = some 'b' :=
  ⟨by decide, (at_returns_symbol (char_kind.other Char) ['a', 'a', 'a', 'b', 'b', 'a', 'c'] 4
    (by decide)).1⟩

/-- Claim C3: with stored run heads, on the state that encodes a string `s`,
for every symbol `c` and every `i` smaller than the number of `c` in `s`,
`select(i, c)` succeeds and returns the position of the `(i+1)`-th `c`: a
position `p < n` with `s[p] = c` and exactly `i` occurrences of `c` before
it. -/
theorem select_returns_position (s : List α) (c : α) (i : Nat) (hi : i < s.count c) :
    ∃ p, select (char_kind.other α) (encode (char_kind.other α) s) i c = some p ∧
      p < s.length ∧ s[p]? = some c ∧ (s.take p).count c = i := by
  have hi2 : i < (expand (runs_of s)).count c := by rw [expand_runs_of]; exact hi
  refine ⟨nth_pos c (runs_of s) i, select_of_runs_other _ i c hi2, ?_, ?_, ?_⟩
  · have := nth_pos_lt c _ i hi2
    rwa [expand_runs_of] at this
  · have := nth_pos_get c _ i hi2
    rwa [expand_runs_of] at this
  · have := nth_pos_count c _ i hi2
    rwa [expand_runs_of] at this

theorem select_returns_position_witness :
    1 < ['a', 'b', 'b', 'a', 'c', 'c'].count 'c' ∧
      ∃ p, select (char_kind.other Char)
          (encode (char_kind.other Char) ['a', 'b', 'b', 'a', 'c', 'c']) 1 'c' = some p ∧
        p < ['a', 'b', 'b', 'a', 'c', 'c'].length ∧
        ['a', 'b', 'b', 'a', 'c', 'c'][p]? = some 'c' ∧
        (['a', 'b', 'b', 'a', 'c', 'c'].take p).count 'c' = 1 :=
  ⟨by decide, select_returns_position ['a', 'b', 'b', 'a', 'c', 'c'] 'c' 1 (by decide)⟩

/-- Claim C4: on the state that encodes a string, in either instantiation,
whenever `select(i, c)` succeeds with position `p` (which needs
`i < rank(size(), c)`), `rank(p, c)` returns `i` and `at(p)` returns `c`. -/
theorem rank_select_round_trip (T : char_kind α) (s : List α) (c : α) (i p : Nat)
    (h : select T (encode T s) i c = some p) :
    (∃ t, rank T (encode T s) (encode T s).size c = some t ∧ i < t) ∧
      rank T (encode T s) p c = some i ∧ at_ T (encode T s) p = some c := by
  obtain ⟨hi, hp⟩ := select_of_runs T _ (encode_wf T s) i c p h
  subst hp
  have hlt := nth_pos_lt c _ i hi
  refine ⟨⟨s.count c, rank_encode_size T s c, ?_⟩, ?_, ?_⟩
  · rwa [expand_runs_of] at hi
  · rw [rank_encode_eq T s _ c (by rw [expand_runs_of] at hlt; omega),
      rank_val_at_nth_pos c _ i hi]
  · have := nth_pos_get c _ i hi
    rw [expand_runs_of] at this
    rw [at_encode_eq, this]

theorem rank_select_round_trip_witness :
    select char_kind.bool (encode char_kind.bool [false, false, true, false, true, true]) 1 true
        = some 4 ∧
      rank char_kind.bool (encode char_kind.bool [false, false, true, false, true, true]) 4 true
        = some 1 ∧
      at_ char_kind.bool (encode char_kind.bool [false, false, true, false, true, true]) 4
        = some true :=
  ⟨by decide, (rank_select_round_trip char_kind.bool [false, false, true, false, true, true]
    true 1 4 (by decide)).2⟩

/-- Claim C5, evaluated on the code: on the state that encodes `aab`,
`rank(1, b)` is 1 and `rank(2, b)` is 0, so `rank` decreases from position 1
to position 2. -/
theorem rank_not_monotone :
    rank (char_kind.other Char) (encode (char_kind.other Char) ['a', 'a', 'b']) 1 'b' = some 1 ∧
      rank (char_kind.other Char) (encode (char_kind.other Char) ['a', 'a', 'b']) 2 'b' = some 0 ∧
      1 ≤ 2 ∧ 2 ≤ ['a', 'a', 'b'].length := by
  decide

/-- Claim C6: on the state that encodes a string of length `n`, in either
instantiation, for every symbol `c` and every `i ≤ n` the call `rank(i, c)`
succeeds and its value is at most `i`. -/
theorem rank_le_position (T : char_kind α) (s : List α) (c : α) (i : Nat)
    (hi : i ≤ s.length) :
    ∃ v, rank T (encode T s) i c = some v ∧ v ≤ i := by
  refine ⟨_, rank_encode_eq T s i c hi, ?_⟩
  have h1 := run_start_le (runs_of s) i
  have h2 := count_before_run_le c (runs_of s) i
  omega

theorem rank_le_position_witness :
    2 ≤ ['a', 'a', 'b'].length ∧
      ∃ v, rank (char_kind.other Char) (encode (char_kind.other Char) ['a', 'a', 'b']) 2 'a'
        = some v ∧ v ≤ 2 :=
  ⟨by decide, rank_le_position (char_kind.other Char) ['a', 'a', 'b'] 'a' 2 (by decide)⟩

/-- Claim C7, evaluated on the code: for the bit sequence `0`, `select(0, false)`
fails in the boolean instantiation (the assertion `i < run_heads_size/2` of
`run_heads_select` is `0 < 0`), and returns position 0 with stored run
heads. -/
theorem bool_select_differs :
    select char_kind.bool (encode char_kind.bool [false]) 0 false = none ∧
      select (char_kind.other Bool) (encode (char_kind.other Bool) [false]) 0 false = some 0 := by
  decide

/-- Claim C8, evaluated on the code: the right-hand neighbour that
`run_heads_insert(i, c)` reads is `i+1`, not `i`.  Inserting `b` at 0 into the
heads `[a]` is refused, although no neighbour equals `b`; inserting `a` at 0
into the heads `[a, b]` is accepted, although the head at 0 is `a`. -/
theorem run_heads_insert_checks_wrong_neighbour :
    (run_heads_insert (char_kind.other Char) (of_heads (char_kind.other Char) ['a']) 0 'b').isSome
        = false ∧
      (run_heads_insert (char_kind.other Char) (of_heads (char_kind.other Char) ['a', 'b']) 0
        'a').isSome = true := by
  decide

/-- Claim C9, evaluated on the code: from the heads `[a, b]`, which have no two
equal neighbours, the accepted call `run_heads_insert(0, a)` leaves the heads
`[a, a, b]`. -/
theorem run_heads_insert_duplicates :
    no_adjacent_dup ['a', 'b'] = true ∧
      (run_heads_insert (char_kind.other Char) (of_heads (char_kind.other Char) ['a', 'b']) 0
        'a').map (read_heads (char_kind.other Char)) = some [some 'a', some 'a', some 'b'] := by
  decide

/-- Claim C10, evaluated on the code: on a default-constructed boolean
`rle_string`, `run_heads_insert(0, false)` is accepted and leaves one run head,
which `run_heads_at(0)` reads as `true`. -/
theorem bool_run_heads_insert_ignores_symbol :
    (run_heads_insert char_kind.bool (rle_string.empty : rle_string Bool) 0 false).map
        (read_heads char_kind.bool) = some [some true] := by
  decide

/-- Claim C11, as stated, fails at the end of the range of `ulint`: on the
boolean run-head layer of `2^64 - 1` alternating heads that start with `false`,
`run_heads_split(0, true)` is accepted (the head at 0 is `false`), and
`run_heads_size += 2` wraps: the size is 1, not `m + 2`, and `run_heads_at(1)`
fails instead of reading `true`. -/
theorem run_heads_split_size_wraps :
    no_adjacent_dup (alt false (2 ^ 64 - 1)) = true ∧
      (alt false (2 ^ 64 - 1))[0]? = some false ∧
      ∃ st2, run_heads_split_ulint char_kind.bool
          (of_heads char_kind.bool (alt false (2 ^ 64 - 1))) 0 true = some st2 ∧
        st2.run_heads_size = 1 ∧
        run_heads_at char_kind.bool st2 (0 + 1) = none := by
  refine ⟨no_adjacent_dup_alt _ _, ?_, ?_⟩
  · rw [alt_getElem?]; decide
  · rw [show (2 : Nat) ^ 64 - 1 = (2 ^ 64 - 2) + 1 by norm_num, of_heads_bool_alt]
    exact ⟨_, rfl, rfl, rfl⟩

/-- Claim C11, amended: `run_heads_split(i, c)` turns head `r` into `r, c, r`.
In either instantiation, on a run-head sequence `h` of size `m` with no two
equal neighbours, when `h[i] = r` exists, `r ≠ c` and `m + 2 < 2^64`, the call
succeeds, the size is `m + 2`, the heads at `i, i+1, i+2` are `r, c, r`, the
heads before `i` are unchanged and the former head at `j > i` is read at `j+2`;
for every `m`, the call fails when `i` is past the end or `h[i] = c`. -/
theorem run_heads_split_spec (T : char_kind α) (h : List α) (i : Nat) (c : α)
    (hd : no_adjacent_dup h = true) :
    (∀ r, h[i]? = some r → r ≠ c → h.length + 2 < 2 ^ 64 →
      ∃ st2, run_heads_split_ulint T (of_heads T h) i c = some st2 ∧
        st2.run_heads_size = h.length + 2 ∧
        run_heads_at T st2 i = some r ∧ run_heads_at T st2 (i + 1) = some c ∧
        run_heads_at T st2 (i + 2) = some r ∧
        (∀ j, j < i → run_heads_at T st2 j = h[j]?) ∧
        (∀ j, i < j → run_heads_at T st2 (j + 2) = h[j]?)) ∧
      ((h.length ≤ i ∨ h[i]? = some c) →
        run_heads_split_ulint T (of_heads T h) i c = none) := by
  constructor
  · intro r hr hc hm
    obtain ⟨st2, h1, h2, h3, h4⟩ := run_heads_split_of_heads T h (fun _ => hd) i c r hr hc
    rw [← run_heads_split_ulint_eq T (of_heads T h) i c hm] at h1
    exact ⟨st2, h1, h2, run_heads_after_split T h (fun _ => hd) i c r hr hc st2 h2 h3 h4⟩
  · intro hr
    exact run_heads_split_ulint_refused T _ i c
      (run_heads_split_refused T h (fun _ => hd) i c hr)

theorem run_heads_split_spec_witness :
    no_adjacent_dup ['a', 'b'] = true ∧
      (∃ st2, run_heads_split_ulint (char_kind.other Char)
          (of_heads (char_kind.other Char) ['a', 'b']) 0 'c' = some st2 ∧
        st2.run_heads_size = ['a', 'b'].length + 2 ∧
        run_heads_at (char_kind.other Char) st2 0 = some 'a' ∧
        run_heads_at (char_kind.other Char) st2 (0 + 1) = some 'c' ∧
        run_heads_at (char_kind.other Char) st2 (0 + 2) = some 'a' ∧
        (∀ j, j < 0 → run_heads_at (char_kind.other Char) st2 j = ['a', 'b'][j]?) ∧
        (∀ j, 0 < j → run_heads_at (char_kind.other Char) st2 (j + 2) = ['a', 'b'][j]?)) ∧
      run_heads_split_ulint (char_kind.other Char) (of_heads (char_kind.other Char) ['a', 'b'])
        0 'a' = none :=
  ⟨by decide,
    (run_heads_split_spec (char_kind.other Char) ['a', 'b'] 0 'c' (by decide)).1 'a'
      (by decide) (by decide) (by norm_num),
    (run_heads_split_spec (char_kind.other Char) ['a', 'b'] 0 'a' (by decide)).2
      (Or.inr (by decide))⟩

/-- Claim C12, as stated, fails: after the accepted call `run_heads_insert(0, a)`
on a default-constructed `rle_string` there is one run head, and
`number_of_runs()` is 0. -/
theorem number_of_runs_not_updated :
    (apply_calls (char_kind.other Char) rle_string.empty [run_heads_call.insert 0 'a']).map
        (fun st => (st.number_of_runs, read_heads (char_kind.other Char) st))
      = some (0, [some 'a']) := by
  decide

/-- Claim C12, amended: after any sequence of accepted `run_heads_insert` and
`run_heads_split` calls on a default-constructed `rle_string`, the member
`run_heads_size` is the number of run heads of the sequence (one per insert,
two per split; with stored run heads, the length of `run_heads_`), and
`number_of_runs()` is still 0: the calls do not write `R`. -/
theorem run_heads_size_conservation (T : char_kind α) (ks : List (run_heads_call α))
    (st : rle_string α) (h : apply_calls T rle_string.empty ks = some st) :
    st.run_heads_size = heads_added ks ∧ (read_heads T st).length = heads_added ks ∧
      (T.is_bool = false → st.run_heads_.length = heads_added ks) ∧
      st.number_of_runs = 0 := by
  obtain ⟨h1, h2, h3⟩ := apply_calls_effect T ks _ st h
  refine ⟨?_, ?_, ?_, ?_⟩
  · rw [h2]; simp [rle_string.empty]
  · rw [read_heads_length, h2]; simp [rle_string.empty]
  · intro hb; rw [h3 hb]; simp [rle_string.empty]
  · exact h1

theorem run_heads_size_conservation_witness :
    ∃ st, apply_calls (char_kind.other Char) rle_string.empty
          [run_heads_call.insert 0 'a', run_heads_call.insert 1 'b',
            run_heads_call.split 0 'c'] = some st ∧
        st.run_heads_size = 4 ∧ (read_heads (char_kind.other Char) st).length = 4 ∧
        ((char_kind.other Char).is_bool = false → st.run_heads_.length = 4) ∧
        st.number_of_runs = 0 :=
  ⟨{ runs := [], runs_per_letter := fun _ => [], run_heads_ := ['a', 'c', 'a', 'b'],
     run_heads_size := 4, run_heads_first_bit := false, n := 0, R := 0 }, rfl,
    run_heads_size_conservation (char_kind.other Char)
      [run_heads_call.insert 0 'a', run_heads_call.insert 1 'b', run_heads_call.split 0 'c']
      _ rfl⟩

/-- Claim C13: on the state with stored run heads that encodes `aaabbacccc`
(run heads `a, b, a, c`, run lengths 3, 2, 1, 4, `n = 10`, `R = 4`),
`at(4) = b`, `rank(6, a) = 4`, `select(1, c) = 7`, `rank(0, a) = 0` and
`select(0, b) = 3`. -/
theorem scenario_general :
    runs_of ['a', 'a', 'a', 'b', 'b', 'a', 'c', 'c', 'c', 'c']
        = [('a', 2), ('b', 1), ('a', 0), ('c', 3)] ∧
      (encode (char_kind.other Char) ['a', 'a', 'a', 'b', 'b', 'a', 'c', 'c', 'c', 'c']).size
        = 10 ∧
      (encode (char_kind.other Char)
        ['a', 'a', 'a', 'b', 'b', 'a', 'c', 'c', 'c', 'c']).number_of_runs = 4 ∧
      at_ (char_kind.other Char)
        (encode (char_kind.other Char) ['a', 'a', 'a', 'b', 'b', 'a', 'c', 'c', 'c', 'c']) 4
        = some 'b' ∧
      rank (char_kind.other Char)
        (encode (char_kind.other Char) ['a', 'a', 'a', 'b', 'b', 'a', 'c', 'c', 'c', 'c']) 6 'a'
        = some 4 ∧
      select (char_kind.other Char)
        (encode (char_kind.other Char) ['a', 'a', 'a', 'b', 'b', 'a', 'c', 'c', 'c', 'c']) 1 'c'
        = some 7 ∧
      rank (char_kind.other Char)
        (encode (char_kind.other Char) ['a', 'a', 'a', 'b', 'b', 'a', 'c', 'c', 'c', 'c']) 0 'a'
        = some 0 ∧
      select (char_kind.other Char)
        (encode (char_kind.other Char) ['a', 'a', 'a', 'b', 'b', 'a', 'c', 'c', 'c', 'c']) 0 'b'
        = some 3 := by
  decide

/-- Claim C14, as stated, fails: on the boolean state that encodes `001011`,
`select1(1)` returns 4, not 5.  The ones are at positions 2, 4 and 5, and
index 1 is the second of them. -/
theorem bool_select1_is_four :
    rle_string.select1 char_kind.bool
        (encode char_kind.bool [false, false, true, false, true, true]) 1 = some 4 ∧
      rle_string.select1 char_kind.bool
        (encode char_kind.bool [false, false, true, false, true, true]) 1 ≠ some 5 := by
  decide

/-- Claim C14, amended: on the boolean state that encodes `001011` (`n = 6`,
four runs, first run head `false`), `rank1(4) = 1`, `select1(1) = 4` and
`at(0) = false`. -/
theorem scenario_bool :
    (encode char_kind.bool [false, false, true, false, true, true]).size = 6 ∧
      (encode char_kind.bool [false, false, true, false, true, true]).number_of_runs = 4 ∧
      (encode char_kind.bool [false, false, true, false, true, true]).run_heads_first_bit
        = false ∧
      rle_string.rank1 char_kind.bool
        (encode char_kind.bool [false, false, true, false, true, true]) 4 = some 1 ∧
      rle_string.select1 char_kind.bool
        (encode char_kind.bool [false, false, true, false, true, true]) 1 = some 4 ∧
      at_ char_kind.bool (encode char_kind.bool [false, false, true, false, true, true]) 0
        = some false := by
  decide

/-- Claim C15: on the state that encodes a string `s` of length `n`, in either
instantiation, `at(i)` fails for `i ≥ n`, `rank(i, c)` fails for `i > n`, and
`select(i, c)` fails when `i` is at least the number of `c` in `s`, which is
the value of `rank(size(), c)`. -/
theorem out_of_range_fails (T : char_kind α) (s : List α) (c : α) (i : Nat) :
    (s.length ≤ i → at_ T (encode T s) i = none) ∧
      (s.length < i → rank T (encode T s) i c = none) ∧
      rank T (encode T s) (encode T s).size c = some (s.count c) ∧
      (s.count c ≤ i → select T (encode T s) i c = none) := by
  refine ⟨?_, rank_encode_none T s i c, rank_encode_size T s c, ?_⟩
  · intro hi
    rw [at_encode_eq, List.getElem?_eq_none hi]
  · intro hi
    unfold select
    rw [rank_encode_size]
    simp only [Option.bind_eq_bind, Option.some_bind]
    rw [if_neg (by omega)]

theorem out_of_range_fails_witness :
    at_ (char_kind.other Char) (encode (char_kind.other Char) ['a', 'b']) 2 = none ∧
      rank (char_kind.other Char) (encode (char_kind.other Char) ['a', 'b']) 3 'a' = none ∧
      select (char_kind.other Char) (encode (char_kind.other Char) ['a', 'b']) 1 'a' = none :=
  ⟨(out_of_range_fails (char_kind.other Char) ['a', 'b'] 'a' 2).1 (by decide),
    (out_of_range_fails (char_kind.other Char) ['a', 'b'] 'a' 3).2.1 (by decide),
    (out_of_range_fails (char_kind.other Char) ['a', 'b'] 'a' 1).2.2.2 (by decide)⟩

/-- Claim C16: in an instantiation with a character type other than `bool`,
`select0`, `select1`, `rank0` and `rank1` fail on every state and argument, in
particular on the state built by the probability-list constructor; in the
boolean instantiation they are `select(i, false)`, `select(i, true)`,
`rank(i, false)` and `rank(i, true)`; the alphabet-size and the
probability-list constructors fail in the boolean instantiation. -/
theorem alphabet_restriction :
    (∀ (st : rle_string α) (i : Nat),
        select0 (char_kind.other α) st i = none ∧
        rle_string.select1 (char_kind.other α) st i = none ∧
        rank0 (char_kind.other α) st i = none ∧
        rle_string.rank1 (char_kind.other α) st i = none) ∧
      (∀ (ρ : Type) (P : List (α × ρ)),
        ∃ st, of_probabilities (char_kind.other α) P = some st ∧
          ∀ i, select0 (char_kind.other α) st i = none) ∧
      (∀ (st : rle_string Bool) (i : Nat),
        select0 char_kind.bool st i = select char_kind.bool st i false ∧
        rle_string.select1 char_kind.bool st i = select char_kind.bool st i true ∧
        rank0 char_kind.bool st i = rank char_kind.bool st i false ∧
        rle_string.rank1 char_kind.bool st i = rank char_kind.bool st i true) ∧
      (∀ sigma : Nat, of_sigma char_kind.bool sigma = none) ∧
      (∀ (ρ : Type) (P : List (Bool × ρ)), of_probabilities char_kind.bool P = none) := by
  refine ⟨fun st i => ⟨rfl, rfl, rfl, rfl⟩, fun ρ P => ⟨_, rfl, fun i => rfl⟩,
    fun st i => ⟨rfl, rfl, rfl, rfl⟩, fun sigma => rfl, fun ρ P => rfl⟩

/-- Claim C17, evaluated on the code: in the boolean instantiation with first
bit `false` and one run head, `run_heads_rank(1, false)` is 1, so index 0 is
valid for `false`, and `run_heads_select(0, false)` fails on the assertion
`i < run_heads_size/2`. -/
theorem bool_run_heads_select_refuses_valid_index :
    run_heads_rank char_kind.bool (bool_heads false 1) 1 false = some 1 ∧
      run_heads_select char_kind.bool (bool_heads false 1) 0 false = none := by
  decide

/-- Claim C18, as stated, fails at the end of the range of `ulint`: in the
boolean instantiation with first bit `true` and size `2^64 - 1`,
`run_heads_rank(2^64 - 1, true)` returns 0, because `(2^64 - 1) + 1` wraps to 0,
while `2^63` of the first `2^64 - 1` elements of the alternating sequence are
`true`. -/
theorem bool_run_heads_rank_wraps :
    run_heads_rank_ulint char_kind.bool (bool_heads true (2 ^ 64 - 1)) (2 ^ 64 - 1) true
        = some 0 ∧
      ((alt true (2 ^ 64 - 1)).take (2 ^ 64 - 1)).count true = 2 ^ 63 := by
  constructor
  · rw [run_heads_rank_ulint_bool (bool_heads true (2 ^ 64 - 1)) (2 ^ 64 - 1) true
      (Nat.le_refl _)]
    decide
  · have := alt_rank true true (2 ^ 64 - 1) (2 ^ 64 - 1) (Nat.le_refl _)
    simp only [string_t.rank] at this
    rw [this]
    decide

/-- Claim C18, amended: in the boolean instantiation with first bit `f` and
size `m`, `run_heads_at(j)`, computed as `(j mod 2) XOR f`, is the `j`-th
element of the alternating sequence `f, not f, f, ...` for `j < m`, and
`run_heads_rank(j, c)`, computed as `(j + (f XOR NOT c)) / 2`, is the number of
`c` among the first `j` elements of that sequence for `j ≤ m`, as long as the
sum `j + (f XOR NOT c)` is below `2^64`. -/
theorem bool_closed_forms (f : Bool) (m j : Nat) (c : Bool) :
    (j < m →
        run_heads_at char_kind.bool (bool_heads f m) j = some (xor (j % 2 == 1) f) ∧
        run_heads_at char_kind.bool (bool_heads f m) j = (alt f m)[j]?) ∧
      (j ≤ m → j + (xor f (!c)).toNat < 2 ^ 64 →
        run_heads_rank_ulint char_kind.bool (bool_heads f m) j c
          = some ((j + (xor f (!c)).toNat) / 2) ∧
        run_heads_rank_ulint char_kind.bool (bool_heads f m) j c
          = some (((alt f m).take j).count c)) := by
  constructor
  · intro hj
    have e : run_heads_at char_kind.bool (bool_heads f m) j = some (xor (j % 2 == 1) f) := by
      rw [run_heads_at_bool]
      exact if_pos hj
    exact ⟨e, by rw [e, alt_getElem?, if_pos hj]⟩
  · intro hj hb
    have e : run_heads_rank_ulint char_kind.bool (bool_heads f m) j c
        = some ((j + (xor f (!c)).toNat) / 2) := by
      rw [run_heads_rank_ulint_bool _ _ _ hj]
      show some ((j + (xor f (!c)).toNat) % 2 ^ 64 / 2) = _
      rw [Nat.mod_eq_of_lt hb]
    refine ⟨e, ?_⟩
    rw [e]
    have := alt_rank f c m j hj
    simp only [string_t.rank] at this
    rw [this]

theorem bool_closed_forms_witness :
    (run_heads_at char_kind.bool (bool_heads true 3) 1 = some (xor (1 % 2 == 1) true) ∧
        run_heads_at char_kind.bool (bool_heads true 3) 1 = (alt true 3)[1]?) ∧
      (run_heads_rank_ulint char_kind.bool (bool_heads true 3) 3 true
          = some ((3 + (xor true (!true)).toNat) / 2) ∧
        run_heads_rank_ulint char_kind.bool (bool_heads true 3) 3 true
          = some (((alt true 3).take 3).count true)) :=
  ⟨(bool_closed_forms true 3 1 true).1 (by decide),
    (bool_closed_forms true 3 3 true).2 (by decide) (by decide)⟩

/-- Claim C19: an accepted `run_heads_insert` or `run_heads_split` call, on any
state, leaves `n` (`size()`), `R` (`number_of_runs()`), the bitvector `runs` and
every bitvector of `runs_per_letter` as they were; a refused call leaves no new
state. -/
theorem mutation_frame (T : char_kind α) (st : rle_string α) (i : Nat) (c : α)
    (st2 : rle_string α)
    (h : run_heads_insert T st i c = some st2 ∨ run_heads_split T st i c = some st2) :
    st2.size = st.size ∧ st2.number_of_runs = st.number_of_runs ∧ st2.runs = st.runs ∧
      st2.runs_per_letter = st.runs_per_letter := by
  rcases h with h | h
  · obtain ⟨h1, h2, h3, h4, _⟩ := run_heads_insert_effect T st i c st2 h
    exact ⟨h1, h2, h3, h4⟩
  · obtain ⟨h1, h2, h3, h4, _⟩ := run_heads_split_effect T st i c st2 h
    exact ⟨h1, h2, h3, h4⟩

theorem mutation_frame_witness :
    ∃ st2, run_heads_insert (char_kind.other Char)
          (encode (char_kind.other Char) ['a', 'a', 'b']) 2 'c' = some st2 ∧
        st2.size = (encode (char_kind.other Char) ['a', 'a', 'b']).size ∧
        st2.number_of_runs = (encode (char_kind.other Char) ['a', 'a', 'b']).number_of_runs ∧
        st2.runs = (encode (char_kind.other Char) ['a', 'a', 'b']).runs ∧
        st2.runs_per_letter
          = (encode (char_kind.other Char) ['a', 'a', 'b']).runs_per_letter :=
  ⟨{ encode (char_kind.other Char) ['a', 'a', 'b'] with
      run_heads_size := 3, run_heads_ := ['a', 'b', 'c'] }, rfl,
    mutation_frame (char_kind.other Char) (encode (char_kind.other Char) ['a', 'a', 'b']) 2 'c'
      _ (Or.inl rfl)⟩

/-- Claim C20: on the state that encodes a string `s`, in either instantiation,
for `i ≤ n` the call `rank(i, c)` returns the number of `c` before `p` plus
`i - p`, where `p` is the start of the run that holds position `i`: `p ≤ i`,
`p = n` when `i = n`, every position from `p` to `i` holds the symbol of `i`,
and the position before `p` holds another one.  That value is the number of
`c` in `[0, i)` exactly when `i = p` (first position of a run, or `i = n`) or
`s[i] = c`.  `rank(size(), c)` is the number of `c` in `s`. -/
theorem rank_exact_value (T : char_kind α) (s : List α) (c : α) (i : Nat)
    (hi : i ≤ s.length) :
    rank T (encode T s) i c
        = some ((s.take (run_start (runs_of s) i)).count c + (i - run_start (runs_of s) i)) ∧
      run_start (runs_of s) i ≤ i ∧
      (i = s.length → run_start (runs_of s) i = s.length) ∧
      (∀ j, run_start (runs_of s) i ≤ j → j ≤ i → i < s.length → s[j]? = s[i]?) ∧
      (0 < run_start (runs_of s) i → i < s.length →
        s[run_start (runs_of s) i - 1]? ≠ s[i]?) ∧
      ((s.take (run_start (runs_of s) i)).count c + (i - run_start (runs_of s) i)
          = (s.take i).count c ↔ (i = run_start (runs_of s) i ∨ s[i]? = some c)) ∧
      rank T (encode T s) (encode T s).size c = some (s.count c) := by
  have hx := expand_runs_of s
  have hp := run_start_le (runs_of s) i
  have h1 := count_take_run_start c (runs_of s) i
  have h2 := count_take_position c (runs_of s) i
  rw [hx] at h1 h2
  refine ⟨?_, hp, ?_, ?_, ?_, ?_, rank_encode_size T s c⟩
  · rw [rank_encode_eq T s i c hi, h1, Nat.add_comm]
  · intro e
    have := run_start_length (runs_of s)
    rw [hx] at this
    rw [e, this]
  · intro j hj1 hj2 hlt
    have := run_same_symbol (runs_of s) i j hj1 hj2
    rw [hx] at this
    rcases this with e | e
    · exact e
    · omega
  · intro h0 hlt
    have := run_is_maximal (runs_of s) (no_adjacent_dup_runs_of s) i (by rw [hx]; exact hlt) h0
    rwa [hx] at this
  · rw [h1, h2]
    by_cases hc : s[i]? = some c
    · simp only [hc, if_true, or_true, iff_true]
    · simp only [hc, if_false, or_false]
      omega

theorem rank_exact_value_witness :
    1 ≤ ['a', 'a', 'b'].length ∧
      rank (char_kind.other Char) (encode (char_kind.other Char) ['a', 'a', 'b']) 1 'b'
        = some ((['a', 'a', 'b'].take (run_start (runs_of ['a', 'a', 'b']) 1)).count 'b'
            + (1 - run_start (runs_of ['a', 'a', 'b']) 1)) :=
  ⟨by decide, (rank_exact_value (char_kind.other Char) ['a', 'a', 'b'] 'b' 1 (by decide)).1⟩

end claims

end dyn
